import Mathlib

/-!
Verification of gohash, a command that prints a hash of a file selected by
algorithm name.

A shallow embedding of `main.go` of `lnsp/gohash`: `getHash32`, `getHash64`,
`hashFile` and `main`, together with the part of the Go standard library the
program calls (`strings.HasSuffix`, `fmt.Sprintf("%x", _)`, `fmt.Println`,
`ioutil.ReadFile`, `flag`, `hash/crc32`, `hash/crc64`, `hash/adler32`,
`hash/fnv`).

Conventions of the embedding:

* a Go `uint32` / `uint64` is a `Nat`, every wrapping operation carries its
  explicit `% 2^32` / `% 2^64`;
* a Go `string` is a `String`, so names and paths are valid UTF-8; on such
  strings a suffix of ASCII bytes is a suffix of characters;
* a Go `(value, error)` result is a pair `value × Option Error`, `none` being
  the `nil` error;
* the file system is the function giving the outcome of `ioutil.ReadFile` at
  every path; each effect the program performs (a file read, a line printed,
  the call of `flag.PrintDefaults`) is recorded, in order, in a list of events
  returned next to the result;
* `main` starts after `flag.Parse()` has returned: its input is the parsed
  command line.
-/

namespace Gohash

/-! ## Data model -/

/-- A byte of a file. -/
abbrev Byte := Fin 256

/-- The error value with which a read of a file failed (whatever
`ioutil.ReadFile` returned: a missing file, a permission failure, a failed
read); `msg` is the text of its `Error()` method. -/
structure ReadError where
  msg : String
  deriving DecidableEq, Repr

/-- The Go `error` values that occur in the program: the value built by
`errors.New(text)`, and an error handed back by `ioutil.ReadFile`. -/
inductive Error where
  | errorsNew (text : String)
  | readFile (e : ReadError)
  deriving DecidableEq, Repr

set_option linter.dupNamespace false in
/-- The `Error()` method: the message of an error value. -/
def Error.Error : Error → String
  | .errorsNew text => text
  | .readFile e => e.msg

/-- A file system state: for every path, the bytes `ioutil.ReadFile` returns
or the error with which it fails. -/
abbrev FileSystem := String → Except ReadError (List Byte)

/-- The observable effects of the program, in the order they happen. -/
inductive Event where
  /-- The call `ioutil.ReadFile(filename)` was made -/
  | read (filename : String)
  /-- The call `fmt.Println` wrote `line` and a newline to standard output -/
  | println (line : String)
  /-- The call `flag.PrintDefaults()` wrote the descriptions of the defined flags -/
  | printDefaults
  deriving DecidableEq, Repr

/-! ## Go standard library: strings, fmt -/

/-- Go `strings.HasSuffix`:
`len(s) >= len(suffix) && s[len(s)-len(suffix):] == suffix`. -/
def HasSuffix (s suffix : String) : Bool :=
  decide (s.data.length ≥ suffix.data.length) &&
    decide (s.data.drop (s.data.length - suffix.data.length) = suffix.data)

/-- Go `fmt`: `const ldigits = "0123456789abcdefx"`. -/
def ldigits : List Char := "0123456789abcdefx".data

/-- Go `fmt.fmtInteger`, base 16, no flags: the digits are written right to
left in front of `buf`,
`for u >= 16 { i--; buf[i] = digits[u&0xF]; u >>= 4 }; i--; buf[i] = digits[u]`.
The first argument bounds the number of loop iterations. -/
def fmtInteger16 : Nat → Nat → List Char → List Char
  | 0, u, buf => ldigits.getD u '?' :: buf
  | fuel + 1, u, buf =>
    if u ≥ 16 then fmtInteger16 fuel (u >>> 4) (ldigits.getD (u &&& 0xF) '?' :: buf)
    else ldigits.getD u '?' :: buf

/-- Go `fmt.Sprintf("%x", v)` for an unsigned integer `v` of at most 64 bits:
`v` is converted to `uint64` and formatted by `fmtInteger`; a `uint64` has at
most 16 hexadecimal digits, so the loop runs at most 15 times. -/
def Sprintf_x (v : Nat) : String :=
  String.mk (fmtInteger16 15 (v % 2 ^ 64) [])

/-! ## Go standard library: hash functions

The packages `hash/crc32`, `hash/crc64`, `hash/adler32` and `hash/fnv` belong to
the Go standard library, not to the repository. They are embedded from their
portable Go code: the byte-at-a-time table loop of the CRC packages (the
slicing-by-8 and machine-specific routines the library may pick instead compute
the same function), the chunked loop of `adler32.update` (later releases unroll
its inner loop four times), and the loops of `fnv`. Further down each one is
proved equal to the published definition of the hash function. -/

/-- Go `hash.Hash32` as the program uses it: a running state (a `uint32`),
`Write` that folds bytes into the state and `Sum32` that returns it. -/
structure Hash32 where
  state : Nat
  update : Nat → List Byte → Nat

/-- The call `hs.Write(p)`. -/
def Hash32.Write (hs : Hash32) (p : List Byte) : Hash32 :=
  { hs with state := hs.update hs.state p }

/-- The call `hs.Sum32()`. -/
def Hash32.Sum32 (hs : Hash32) : Nat := hs.state

/-- Go `hash.Hash64` as the program uses it. -/
structure Hash64 where
  state : Nat
  update : Nat → List Byte → Nat

/-- The call `hs.Write(p)`. -/
def Hash64.Write (hs : Hash64) (p : List Byte) : Hash64 :=
  { hs with state := hs.update hs.state p }

/-- The call `hs.Sum64()`. -/
def Hash64.Sum64 (hs : Hash64) : Nat := hs.state

/-- One round of the table construction shared by `hash/crc32` and
`hash/crc64`: `if crc&1 == 1 { crc = (crc >> 1) ^ poly } else { crc >>= 1 }`. -/
def crcShift (poly crc : Nat) : Nat :=
  if crc &&& 1 = 1 then (crc >>> 1) ^^^ poly else crc >>> 1

/-- The table of a reflected CRC (`simplePopulateTable` in `hash/crc32`,
`makeTable` in `hash/crc64`): entry `i` is `i` after eight rounds. -/
def crcMakeTable (poly : Nat) : List Nat :=
  (List.range 256).map fun i => (crcShift poly)^[8] i

/-- The byte loop shared by both CRC packages:
`for _, v := range p { crc = tab[byte(crc)^v] ^ (crc >> 8) }`. -/
def crcLoop (tab : List Nat) (crc : Nat) (p : List Byte) : Nat :=
  p.foldl (fun crc v => tab.getD ((crc % 256) ^^^ v.val) 0 ^^^ (crc >>> 8)) crc

namespace crc32

/-- Go `crc32.IEEE = 0xedb88320`. -/
def IEEE : Nat := 0xedb88320

/-- Go `crc32.IEEETable`. -/
def IEEETable : List Nat := crcMakeTable IEEE

/-- Go `crc32.simpleUpdate`: `crc = ^crc`, the byte loop, `return ^crc`. -/
def simpleUpdate (crc : Nat) (tab : List Nat) (p : List Byte) : Nat :=
  crcLoop tab (crc ^^^ 0xffffffff) p ^^^ 0xffffffff

/-- Go `crc32.NewIEEE()`: a digest with `crc = 0` over the IEEE table. -/
def NewIEEE : Hash32 := ⟨0, fun crc p => simpleUpdate crc IEEETable p⟩

end crc32

namespace crc64

/-- Go `crc64.ISO = 0xD800000000000000`. -/
def ISO : Nat := 0xD800000000000000

/-- Go `crc64.MakeTable`. -/
def MakeTable (poly : Nat) : List Nat := crcMakeTable poly

/-- Go `crc64.update`: `crc = ^crc`, the byte loop, `return ^crc`. -/
def update (crc : Nat) (tab : List Nat) (p : List Byte) : Nat :=
  crcLoop tab (crc ^^^ 0xffffffffffffffff) p ^^^ 0xffffffffffffffff

/-- Go `crc64.New(tab)`: a digest with `crc = 0` over `tab`. -/
def New (tab : List Nat) : Hash64 := ⟨0, fun crc p => update crc tab p⟩

end crc64

namespace adler32

/-- Go `adler32`: `mod = 65521`, the largest prime below 65536. -/
def mod : Nat := 65521

/-- Go `adler32`: `nmax = 5552`, the longest run of bytes that can be summed
from reduced `s1`, `s2` without overflowing a `uint32`. -/
def nmax : Nat := 5552

/-- The inner loop `for _, x := range p { s1 += uint32(x); s2 += s1 }` on
`uint32` values. -/
def sums (s : Nat × Nat) (p : List Byte) : Nat × Nat :=
  p.foldl (fun s x =>
    let s1 := (s.1 + x.val) % 2 ^ 32
    (s1, (s.2 + s1) % 2 ^ 32)) s

/-- The outer loop `for len(p) > 0 { ... }` of Go `adler32.update`: at most
`nmax` bytes are summed, then `s1 %= mod; s2 %= mod`, and the loop continues
with the rest. The first argument bounds the number of iterations. -/
def chunks : Nat → Nat × Nat → List Byte → Nat × Nat
  | 0, s, _ => s
  | fuel + 1, s, p =>
    if p.length > 0 then
      let pq : List Byte × List Byte :=
        if p.length > nmax then (p.take nmax, p.drop nmax) else (p, [])
      let s := sums s pq.1
      chunks fuel (s.1 % mod, s.2 % mod) pq.2
    else s

/-- Go `adler32.update`: `s1, s2 := uint32(d&0xffff), uint32(d>>16)`, the
chunked loop (every iteration consumes a byte, so `len(p)` iterations are
enough), `return digest(s2<<16 | s1)`. -/
def update (d : Nat) (p : List Byte) : Nat :=
  let s := chunks p.length (d &&& 0xffff, d >>> 16) p
  ((s.2 <<< 16) % 2 ^ 32) ||| s.1

/-- Go `adler32.New()`: the digest starts at 1. -/
def New : Hash32 := ⟨1, update⟩

end adler32

namespace fnv

/-- Go `fnv`: `offset32 = 2166136261`. -/
def offset32 : Nat := 2166136261
/-- Go `fnv`: `offset64 = 14695981039346656037`. -/
def offset64 : Nat := 14695981039346656037
/-- Go `fnv`: `prime32 = 16777619`. -/
def prime32 : Nat := 16777619
/-- Go `fnv`: `prime64 = 1099511628211`. -/
def prime64 : Nat := 1099511628211

/-- Go `(*sum32).Write`: `hash *= prime32; hash ^= sum32(c)` for every byte. -/
def write32 (hash : Nat) (data : List Byte) : Nat :=
  data.foldl (fun hash c => ((hash * prime32) % 2 ^ 32) ^^^ c.val) hash

/-- Go `(*sum32a).Write`: `hash ^= sum32a(c); hash *= prime32` for every byte. -/
def write32a (hash : Nat) (data : List Byte) : Nat :=
  data.foldl (fun hash c => ((hash ^^^ c.val) * prime32) % 2 ^ 32) hash

/-- Go `(*sum64).Write`: `hash *= prime64; hash ^= sum64(c)` for every byte. -/
def write64 (hash : Nat) (data : List Byte) : Nat :=
  data.foldl (fun hash c => ((hash * prime64) % 2 ^ 64) ^^^ c.val) hash

/-- Go `(*sum64a).Write`: `hash ^= sum64a(c); hash *= prime64` for every byte. -/
def write64a (hash : Nat) (data : List Byte) : Nat :=
  data.foldl (fun hash c => ((hash ^^^ c.val) * prime64) % 2 ^ 64) hash

/-- Go `fnv.New32()`. -/
def New32 : Hash32 := ⟨offset32, write32⟩
/-- Go `fnv.New32a()`. -/
def New32a : Hash32 := ⟨offset32, write32a⟩
/-- Go `fnv.New64()`. -/
def New64 : Hash64 := ⟨offset64, write64⟩
/-- Go `fnv.New64a()`. -/
def New64a : Hash64 := ⟨offset64, write64a⟩

end fnv

/-! ## The program -/

/-- The constant of `main.go`: `const versionInfo = "gohash 1.0"`. -/
def versionInfo : String := "gohash 1.0"

/-- Go `ioutil.ReadFile(filename)` on the file system `fs`: the content and a
`nil` error, or no content and the error; the read is recorded. -/
def ReadFile (fs : FileSystem) (filename : String) :
    (List Byte × Option Error) × List Event :=
  match fs filename with
  | .ok bs => ((bs, none), [Event.read filename])
  | .error e => (([], some (Error.readFile e)), [Event.read filename])

/-- Function `getHash32` of `main.go`: returns the 32 bit hash of the file using the
provided algorithm. -/
def getHash32 (fs : FileSystem) (filename : String) (hs : Hash32) :
    (Nat × Option Error) × List Event :=
  match ReadFile fs filename with
  | ((_, some err), t) => ((0, some err), t)
  | ((bs, none), t) => (((hs.Write bs).Sum32, none), t)

/-- Function `getHash64` of `main.go`: returns the 64 bit hash of the file using the
provided algorithm. -/
def getHash64 (fs : FileSystem) (filename : String) (hs : Hash64) :
    (Nat × Option Error) × List Event :=
  match ReadFile fs filename with
  | ((_, some err), t) => ((0, some err), t)
  | ((bs, none), t) => (((hs.Write bs).Sum64, none), t)

/-- The `switch algorithm` of the 32-bit branch of `hashFile`: the call made
by the matching case, `none` for `default`. -/
def switch32 (fs : FileSystem) (filename algorithm : String) :
    Option ((Nat × Option Error) × List Event) :=
  if algorithm = "crc32" then some (getHash32 fs filename crc32.NewIEEE)
  else if algorithm = "adler32" then some (getHash32 fs filename adler32.New)
  else if algorithm = "fnv32" then some (getHash32 fs filename fnv.New32)
  else if algorithm = "fnva32" then some (getHash32 fs filename fnv.New32a)
  else none

/-- The `switch algorithm` of the 64-bit branch of `hashFile`. -/
def switch64 (fs : FileSystem) (filename algorithm : String) :
    Option ((Nat × Option Error) × List Event) :=
  if algorithm = "crc64" then
    some (getHash64 fs filename (crc64.New (crc64.MakeTable crc64.ISO)))
  else if algorithm = "fnv64" then some (getHash64 fs filename fnv.New64)
  else if algorithm = "fnva64" then some (getHash64 fs filename fnv.New64a)
  else none

/-- Function `hashFile` of `main.go`: maps the name to an algorithm and hashes the
file. The result is Go's `(string, error)` and the events performed. -/
def hashFile (fs : FileSystem) (filename algorithm : String) :
    (String × Option Error) × List Event :=
  if HasSuffix algorithm "32" then
    match switch32 fs filename algorithm with
    | none => (("", some (Error.errorsNew "unknown algorithm")), [])
    | some ((_, some err), t) => (("", some err), t)
    | some ((result, none), t) => ((Sprintf_x result, none), t)
  else if HasSuffix algorithm "64" then
    match switch64 fs filename algorithm with
    | none => (("", some (Error.errorsNew "unknown algorithm")), [])
    | some ((_, some err), t) => (("", some err), t)
    | some ((result, none), t) => ((Sprintf_x result, none), t)
  else (("", some (Error.errorsNew "unknown algorithm")), [])

/-- The command line after `flag.Parse()`: for each of the three flags the
value given on the command line (`none` when the flag does not occur), and the
positional arguments. -/
structure CommandLine where
  version : Option Bool
  help : Option Bool
  a : Option String
  args : List String

/-- Go `flag.Bool(name, value, usage)` after parsing: the value given on the
command line, else the default `value`. -/
def flagBool (given : Option Bool) (value : Bool) : Bool := given.getD value

/-- Go `flag.String(name, value, usage)` after parsing. -/
def flagString (given : Option String) (value : String) : String := given.getD value

/-- Go `flag.Arg(i)`: the `i`-th positional argument, `""` when there is none. -/
def flagArg (cl : CommandLine) (i : Nat) : String := cl.args.getD i ""

/-- Function `main` of `main.go` from the parsed command line on: the events it
performs before it returns. `fmt.Println("error:", err)` prints its operands
separated by a space. -/
def main (fs : FileSystem) (cl : CommandLine) : List Event :=
  let version := flagBool cl.version false
  let help := flagBool cl.help false
  let algorithm := flagString cl.a "crc32"
  if help then
    [Event.println "gohash [-a] [--help] [--version] [file]", Event.printDefaults]
  else if version then
    [Event.println versionInfo]
  else
    let filename := flagArg cl 0
    match hashFile fs filename algorithm with
    | ((_, some err), t) => t ++ [Event.println ("error:" ++ " " ++ err.Error)]
    | ((result, none), t) => t ++ [Event.println result]


/-! ## Reference definitions

The published definitions of the seven hash functions and of a base-16
numeral, written without tables, chunking or machine words, and the dispatcher
with a single lookup that the specification describes. The program is compared
with them below. -/

namespace Reference

/-- Reflected CRC of `width` bits with the (reversed) polynomial `poly`, bit by
bit: the register starts with all bits set; every byte is xored into its low
end and followed by eight shift rounds; the result is the complement of the
register. -/
def crc (width poly : Nat) (bs : List Byte) : Nat :=
  bs.foldl (fun reg b => (crcShift poly)^[8] (reg ^^^ b.val)) (2 ^ width - 1) ^^^ (2 ^ width - 1)

/-- CRC-32 with the IEEE polynomial. -/
def crc32IEEE (bs : List Byte) : Nat := crc 32 0xedb88320 bs

/-- CRC-64 with the ISO polynomial. -/
def crc64ISO (bs : List Byte) : Nat := crc 64 0xd800000000000000 bs

/-- The two running sums of Adler-32, both modulo 65521: the first adds up the
bytes, the second adds up the values the first takes. -/
def adlerSums (s : Nat × Nat) (bs : List Byte) : Nat × Nat :=
  bs.foldl (fun s b => ((s.1 + b.val) % 65521, (s.2 + (s.1 + b.val)) % 65521)) s

/-- The two running sums of Adler-32 as plain numbers, without any reduction;
they relate the sums on machine words to the sums modulo 65521. -/
def plainSums (s : Nat × Nat) (bs : List Byte) : Nat × Nat :=
  bs.foldl (fun s b => (s.1 + b.val, s.2 + (s.1 + b.val))) s

/-- Adler-32: the sums start at 1 and 0; the second sum is the high half of
the checksum, the first the low half. -/
def adler32 (bs : List Byte) : Nat :=
  (adlerSums (1, 0) bs).2 * 65536 + (adlerSums (1, 0) bs).1

/-- FNV-1 of `width` bits from the hash `h` on: for every byte, multiply by the
prime, then xor the byte in. -/
def fnv1 (width prime : Nat) (h : Nat) : List Byte → Nat
  | [] => h
  | b :: bs => fnv1 width prime (((h * prime) % 2 ^ width) ^^^ b.val) bs

/-- FNV-1a of `width` bits from the hash `h` on: for every byte, xor the byte
in, then multiply by the prime. -/
def fnv1a (width prime : Nat) (h : Nat) : List Byte → Nat
  | [] => h
  | b :: bs => fnv1a width prime (((h ^^^ b.val) * prime) % 2 ^ width) bs

/-- FNV-1 of 32 bits: prime `2^24 + 2^8 + 0x93`, offset basis `0x811c9dc5`. -/
def fnv1_32 (bs : List Byte) : Nat := fnv1 32 (2 ^ 24 + 2 ^ 8 + 0x93) 0x811c9dc5 bs

/-- FNV-1a of 32 bits, same prime and offset basis. -/
def fnv1a_32 (bs : List Byte) : Nat := fnv1a 32 (2 ^ 24 + 2 ^ 8 + 0x93) 0x811c9dc5 bs

/-- FNV-1 of 64 bits: prime `2^40 + 2^8 + 0xb3`, offset basis `0xcbf29ce484222325`. -/
def fnv1_64 (bs : List Byte) : Nat := fnv1 64 (2 ^ 40 + 2 ^ 8 + 0xb3) 0xcbf29ce484222325 bs

/-- FNV-1a of 64 bits, same prime and offset basis. -/
def fnv1a_64 (bs : List Byte) : Nat := fnv1a 64 (2 ^ 40 + 2 ^ 8 + 0xb3) 0xcbf29ce484222325 bs

/-- The table of recognised algorithms of the specification: name, width in
bits, hash function. -/
def table : List (String × Nat × (List Byte → Nat)) :=
  [("crc32", 32, crc32IEEE),
   ("adler32", 32, adler32),
   ("fnv32", 32, fnv1_32),
   ("fnva32", 32, fnv1a_32),
   ("crc64", 64, crc64ISO),
   ("fnv64", 64, fnv1_64),
   ("fnva64", 64, fnv1a_64)]

/-- The seven recognised names. -/
def names : List String := table.map Prod.fst

/-- Exact-match lookup of a name in the table. -/
def lookup (name : String) : Option (Nat × (List Byte → Nat)) :=
  (table.find? fun entry => decide (entry.1 = name)).map Prod.snd

/-- Unpadded lowercase hexadecimal text of a number. -/
def hex (v : Nat) : String := String.mk (Nat.toDigits 16 v)

/-- The value of a hexadecimal digit `0`-`9`, `a`-`f`; nothing else (in
particular not `A`-`F`) is a digit. -/
def hexDigit? (c : Char) : Option Nat :=
  if '0'.toNat ≤ c.toNat ∧ c.toNat ≤ '9'.toNat then some (c.toNat - '0'.toNat)
  else if 'a'.toNat ≤ c.toNat ∧ c.toNat ≤ 'f'.toNat then some (c.toNat - 'a'.toNat + 10)
  else none

/-- Reads digits as a base-16 numeral, most significant digit first, continuing
from the value `acc`. -/
def readHexFrom (acc : Nat) : List Char → Option Nat
  | [] => some acc
  | c :: cs =>
    match hexDigit? c with
    | none => none
    | some d => readHexFrom (acc * 16 + d) cs

/-- The number a text denotes as a base-16 numeral; the empty text and a text
with a character that is not a digit denote nothing. -/
def readHex (s : String) : Option Nat :=
  if s.data = [] then none else readHexFrom 0 s.data

/-- The dispatcher with a single lookup: an exact match of the name in the
table reads the whole file and hashes it, anything else is the
unknown-algorithm error, without a read and without a test of the suffix. -/
def hashFile (fs : FileSystem) (filename algorithm : String) :
    (String × Option Error) × List Event :=
  match lookup algorithm with
  | none => (("", some (Error.errorsNew "unknown algorithm")), [])
  | some (_, h) =>
    match fs filename with
    | .ok bs => ((hex (h bs), none), [Event.read filename])
    | .error e => (("", some (Error.readFile e)), [Event.read filename])

end Reference

/-- A file system state for the examples: `abc.txt` holds the three bytes
`abc`, `empty` holds no byte, every other path is missing. -/
def exampleFS : FileSystem := fun path =>
  if path = "abc.txt" then .ok [0x61, 0x62, 0x63]
  else if path = "empty" then .ok []
  else .error ⟨"open " ++ path ++ ": no such file or directory"⟩

/-! ## fmt: the text of `%x` -/

theorem ldigits_getD (d : Nat) (h : d < 16) : ldigits.getD d '?' = Nat.digitChar d := by
  interval_cases d <;> rfl

theorem fmtInteger16_eq_toDigitsCore : ∀ (n u : Nat) (buf : List Char) (fuel : Nat),
    u < n → u < 16 ^ (fuel + 1) →
    fmtInteger16 fuel u buf = Nat.toDigitsCore 16 n u buf := by
  intro n
  induction n with
  | zero => intro u buf fuel h; omega
  | succ n ih =>
    intro u buf fuel hn hu
    cases fuel with
    | zero =>
      have hu16 : u < 16 := by simpa using hu
      have hdiv : u / 16 = 0 := by omega
      have hmod : u % 16 = u := by omega
      simp only [fmtInteger16, Nat.toDigitsCore, hdiv, hmod, ldigits_getD u hu16, if_true]
    | succ fuel =>
      by_cases h16 : u ≥ 16
      · have hdiv : u / 16 ≠ 0 := by omega
        have hand : u &&& 0xF = u % 16 := Nat.and_pow_two_sub_one_eq_mod u 4
        have hshift : u >>> 4 = u / 16 := by rw [Nat.shiftRight_eq_div_pow]
        have hlt : u / 16 < 16 ^ (fuel + 1) := by
          rw [Nat.div_lt_iff_lt_mul (by decide)]
          calc u < 16 ^ (fuel + 1 + 1) := hu
            _ = 16 ^ (fuel + 1) * 16 := by rw [pow_succ]
        simp only [fmtInteger16, Nat.toDigitsCore, h16, if_true, hdiv, if_false, hand, hshift]
        rw [ldigits_getD _ (Nat.mod_lt _ (by decide))]
        exact ih (u / 16) _ fuel (by omega) hlt
      · have hu16 : u < 16 := by omega
        have hdiv : u / 16 = 0 := by omega
        have hmod : u % 16 = u := by omega
        simp only [fmtInteger16, Nat.toDigitsCore, hdiv, hmod, ldigits_getD u hu16, h16,
          if_true, if_false]

/-- The text `fmt.Sprintf("%x", v)` is the unpadded lowercase hexadecimal text of a
value that fits 64 bits. -/
theorem Sprintf_x_eq_hex (v : Nat) (hv : v < 2 ^ 64) : Sprintf_x v = Reference.hex v := by
  unfold Sprintf_x Reference.hex Nat.toDigits
  rw [Nat.mod_eq_of_lt hv]
  congr 1
  exact fmtInteger16_eq_toDigitsCore (v + 1) v [] 15 (by omega) (by simpa using hv)

theorem fmtInteger16_append : ∀ (fuel u : Nat) (buf : List Char),
    fmtInteger16 fuel u buf = fmtInteger16 fuel u [] ++ buf := by
  intro fuel
  induction fuel with
  | zero => intro u buf; simp only [fmtInteger16, List.singleton_append]
  | succ fuel ih =>
    intro u buf
    by_cases h16 : u ≥ 16
    · simp only [fmtInteger16, h16, if_true]
      rw [ih _ (_ :: buf), ih _ [_], List.append_assoc, List.singleton_append]
    · simp only [fmtInteger16, h16, if_false, List.singleton_append]

theorem fmtInteger16_small (fuel u : Nat) (h : u < 16) :
    fmtInteger16 fuel u [] = [Nat.digitChar u] := by
  have h16 : ¬ u ≥ 16 := by omega
  cases fuel <;> simp only [fmtInteger16, h16, if_false, ldigits_getD u h]

theorem fmtInteger16_large (fuel u : Nat) (h : u ≥ 16) :
    fmtInteger16 (fuel + 1) u [] = fmtInteger16 fuel (u / 16) [] ++ [Nat.digitChar (u % 16)] := by
  have hand : u &&& 0xF = u % 16 := Nat.and_pow_two_sub_one_eq_mod u 4
  have hshift : u >>> 4 = u / 16 := by rw [Nat.shiftRight_eq_div_pow]
  simp only [fmtInteger16, h, if_true, hand, hshift]
  rw [fmtInteger16_append, ldigits_getD _ (Nat.mod_lt _ (by decide))]

theorem hexDigit?_digitChar (d : Nat) (h : d < 16) :
    Reference.hexDigit? (Nat.digitChar d) = some d := by
  interval_cases d <;> rfl

theorem digitChar_mem (d : Nat) (h : d < 16) :
    Nat.digitChar d ∈ "0123456789abcdef".data := by
  interval_cases d <;> decide

theorem digitChar_eq_zero (d : Nat) (h : d < 16) (h0 : Nat.digitChar d = '0') : d = 0 := by
  interval_cases d <;> first | rfl | exact absurd h0 (by decide)

theorem readHexFrom_append (xs ys : List Char) : ∀ acc : Nat,
    Reference.readHexFrom acc (xs ++ ys) =
      (Reference.readHexFrom acc xs).bind fun a => Reference.readHexFrom a ys := by
  induction xs with
  | nil => intro acc; rfl
  | cons c cs ih =>
    intro acc
    simp only [List.cons_append, Reference.readHexFrom]
    cases Reference.hexDigit? c with
    | none => rfl
    | some d => exact ih _

theorem div16_lt_pow {u fuel : Nat} (hu : u < 16 ^ (fuel + 1 + 1)) : u / 16 < 16 ^ (fuel + 1) := by
  rw [Nat.div_lt_iff_lt_mul (by decide)]
  calc u < 16 ^ (fuel + 1 + 1) := hu
    _ = 16 ^ (fuel + 1) * 16 := by rw [pow_succ]

/-- What `fmtInteger` writes for `u` when the iteration bound is large enough:
a non-empty run of the digits `0`-`9`, `a`-`f`, without a leading zero unless
it is `0` alone, that reads back as `u`. -/
theorem fmtInteger16_spec : ∀ (fuel u : Nat), u < 16 ^ (fuel + 1) →
    fmtInteger16 fuel u [] ≠ [] ∧
    (∀ c ∈ fmtInteger16 fuel u [], c ∈ "0123456789abcdef".data) ∧
    ((fmtInteger16 fuel u []).head? = some '0' → fmtInteger16 fuel u [] = ['0']) ∧
    Reference.readHexFrom 0 (fmtInteger16 fuel u []) = some u := by
  intro fuel
  induction fuel with
  | zero =>
    intro u hu
    have hu16 : u < 16 := by simpa using hu
    rw [fmtInteger16_small 0 u hu16]
    refine ⟨by simp, ?_, ?_, ?_⟩
    · intro c hc
      rw [List.mem_singleton] at hc
      rw [hc]
      exact digitChar_mem u hu16
    · intro h
      simp only [List.head?_cons, Option.some.injEq] at h
      rw [h]
    · simp only [Reference.readHexFrom, hexDigit?_digitChar u hu16, Nat.zero_mul, Nat.zero_add]
  | succ fuel ih =>
    intro u hu
    by_cases h16 : u ≥ 16
    · obtain ⟨hne, hmem, hhead, hread⟩ := ih (u / 16) (div16_lt_pow hu)
      have hmod : u % 16 < 16 := Nat.mod_lt _ (by decide)
      rw [fmtInteger16_large fuel u h16]
      refine ⟨by simp, ?_, ?_, ?_⟩
      · intro c hc
        rcases List.mem_append.mp hc with hc | hc
        · exact hmem c hc
        · rw [List.mem_singleton] at hc
          rw [hc]
          exact digitChar_mem _ hmod
      · intro h
        rw [List.head?_append_of_ne_nil _ hne] at h
        have h1 := hhead h
        rw [h1] at hread
        have h2 : (0 : Nat) = u / 16 := by
          simpa [Reference.readHexFrom, Reference.hexDigit?] using hread
        omega
      · rw [readHexFrom_append, hread]
        simp only [Option.bind, Reference.readHexFrom, hexDigit?_digitChar _ hmod]
        congr 1
        omega
    · have hu16 : u < 16 := by omega
      rw [fmtInteger16_small _ u hu16]
      refine ⟨by simp, ?_, ?_, ?_⟩
      · intro c hc
        rw [List.mem_singleton] at hc
        rw [hc]
        exact digitChar_mem u hu16
      · intro h
        simp only [List.head?_cons, Option.some.injEq] at h
        rw [h]
      · simp only [Reference.readHexFrom, hexDigit?_digitChar u hu16, Nat.zero_mul, Nat.zero_add]

theorem fmtInteger16_length : ∀ (fuel u k : Nat), u < 16 ^ (k + 1) →
    (fmtInteger16 fuel u []).length ≤ k + 1 := by
  intro fuel
  induction fuel with
  | zero => intro u k _; simp [fmtInteger16]
  | succ fuel ih =>
    intro u k hu
    by_cases h16 : u ≥ 16
    · rw [fmtInteger16_large fuel u h16]
      cases k with
      | zero => simp at hu; omega
      | succ k =>
        have := ih (u / 16) k (div16_lt_pow hu)
        simp only [List.length_append, List.length_singleton]
        omega
    · rw [fmtInteger16_small _ u (by omega)]
      simp

/-! ## CRC: the table-driven loop computes the bit-by-bit CRC -/

theorem xor_xor_xor_cancel (x y p : Nat) : (x ^^^ p) ^^^ (y ^^^ p) = x ^^^ y := by
  apply Nat.eq_of_testBit_eq
  intro i
  simp only [Nat.testBit_xor]
  cases Nat.testBit x i <;> cases Nat.testBit y i <;> cases Nat.testBit p i <;> rfl

theorem xor_right_swap (x y p : Nat) : (x ^^^ p) ^^^ y = (x ^^^ y) ^^^ p := by
  apply Nat.eq_of_testBit_eq
  intro i
  simp only [Nat.testBit_xor]
  cases Nat.testBit x i <;> cases Nat.testBit y i <;> cases Nat.testBit p i <;> rfl

/-- A shift round is linear over xor. -/
theorem crcShift_xor (poly a b : Nat) :
    crcShift poly (a ^^^ b) = crcShift poly a ^^^ crcShift poly b := by
  have h1 : ∀ x : Nat, x >>> 1 = x / 2 := fun x => by simp [Nat.shiftRight_eq_div_pow]
  have hm : (a ^^^ b) % 2 = (a + b) % 2 := Nat.xor_mod_two_eq
  unfold crcShift
  simp only [Nat.and_one_is_mod, h1, Nat.xor_div_two]
  rcases Nat.mod_two_eq_zero_or_one a with ha | ha <;>
    rcases Nat.mod_two_eq_zero_or_one b with hb | hb
  · have hab : (a ^^^ b) % 2 = 0 := by omega
    simp only [ha, hb, hab, if_false, Nat.zero_ne_one]
  · have hab : (a ^^^ b) % 2 = 1 := by omega
    simp only [ha, hb, hab, if_false, if_true, Nat.zero_ne_one, Nat.xor_assoc]
  · have hab : (a ^^^ b) % 2 = 1 := by omega
    simp only [ha, hb, hab, if_false, if_true, Nat.zero_ne_one]
    exact (xor_right_swap _ _ _).symm
  · have hab : (a ^^^ b) % 2 = 0 := by omega
    simp only [ha, hb, hab, if_false, if_true, Nat.zero_ne_one]
    exact (xor_xor_xor_cancel _ _ _).symm

theorem crcShift_iterate_xor (poly : Nat) (k : Nat) : ∀ a b : Nat,
    (crcShift poly)^[k] (a ^^^ b) = (crcShift poly)^[k] a ^^^ (crcShift poly)^[k] b := by
  induction k with
  | zero => intro a b; rfl
  | succ k ih =>
    intro a b
    simp only [Function.iterate_succ_apply, crcShift_xor, ih]

/-- Shift rounds on a register whose low bits are clear only shift. -/
theorem crcShift_iterate_shiftLeft (poly : Nat) (k : Nat) (h : Nat) :
    (crcShift poly)^[k] (h * 2 ^ k) = h := by
  induction k with
  | zero => simp
  | succ k ih =>
    rw [Function.iterate_succ_apply]
    have hstep : crcShift poly (h * 2 ^ (k + 1)) = h * 2 ^ k := by
      have heven : h * 2 ^ (k + 1) = 2 * (h * 2 ^ k) := by rw [pow_succ]; ring
      unfold crcShift
      rw [Nat.and_one_is_mod, heven]
      have h0 : 2 * (h * 2 ^ k) % 2 = 0 := by omega
      rw [h0]
      simp [Nat.shiftRight_eq_div_pow]
    rw [hstep, ih]

theorem split_low_byte (x : Nat) : x = (x % 2 ^ 8) ^^^ ((x / 2 ^ 8) * 2 ^ 8) := by
  rw [Nat.mul_comm]
  apply Nat.eq_of_testBit_eq
  intro i
  rw [Nat.testBit_xor, Nat.testBit_mod_two_pow, Nat.testBit_mul_pow_two,
    ← Nat.shiftRight_eq_div_pow, Nat.testBit_shiftRight]
  by_cases hi : i < 8
  · have : ¬ 8 ≤ i := by omega
    simp [hi, this]
  · have h8 : 8 ≤ i := by omega
    have : 8 + (i - 8) = i := by omega
    simp [hi, h8, this]

/-- Eight shift rounds act on the low byte alone; the rest of the register is
shifted down by a byte. -/
theorem crcShift_byte (poly x : Nat) :
    (crcShift poly)^[8] x = (crcShift poly)^[8] (x % 256) ^^^ (x / 256) := by
  have h := split_low_byte x
  have h256 : (2 : Nat) ^ 8 = 256 := by norm_num
  rw [h256] at h
  conv_lhs => rw [h]
  rw [crcShift_iterate_xor]
  have := crcShift_iterate_shiftLeft poly 8 (x / 256)
  rw [h256] at this
  rw [this]

theorem crcMakeTable_getD (poly i : Nat) (h : i < 256) :
    (crcMakeTable poly).getD i 0 = (crcShift poly)^[8] i := by
  unfold crcMakeTable
  rw [List.getD_eq_getElem _ _ (by simpa using h)]
  simp

theorem xor_byte_mod (crc w : Nat) (hw : w < 2 ^ 8) :
    (crc ^^^ w) % 2 ^ 8 = (crc % 2 ^ 8) ^^^ w := by
  apply Nat.eq_of_testBit_eq
  intro i
  rw [Nat.testBit_mod_two_pow, Nat.testBit_xor, Nat.testBit_xor, Nat.testBit_mod_two_pow]
  by_cases hi : i < 8
  · simp [hi]
  · have : w < 2 ^ i := lt_of_lt_of_le hw (Nat.pow_le_pow_right (by decide) (by omega))
    simp [hi, Nat.testBit_lt_two_pow this]

theorem xor_byte_div (crc w : Nat) (hw : w < 2 ^ 8) :
    (crc ^^^ w) / 2 ^ 8 = crc >>> 8 := by
  apply Nat.eq_of_testBit_eq
  intro i
  rw [← Nat.shiftRight_eq_div_pow, Nat.testBit_shiftRight, Nat.testBit_xor,
    Nat.testBit_shiftRight]
  have : w < 2 ^ (8 + i) := lt_of_lt_of_le hw (Nat.pow_le_pow_right (by decide) (by omega))
  simp [Nat.testBit_lt_two_pow this]

/-- One step of the table-driven loop is the byte xored into the register
followed by eight shift rounds. -/
theorem crcLoop_step (poly crc : Nat) (v : Byte) :
    (crcMakeTable poly).getD ((crc % 256) ^^^ v.val) 0 ^^^ (crc >>> 8)
      = (crcShift poly)^[8] (crc ^^^ v.val) := by
  have hv : v.val < 2 ^ 8 := v.isLt
  have hc : crc % 256 < 2 ^ 8 := Nat.mod_lt _ (by decide)
  have hidx : (crc % 256) ^^^ v.val < 256 := Nat.xor_lt_two_pow hc hv
  have hlow : (crc ^^^ v.val) % 256 = (crc % 256) ^^^ v.val := xor_byte_mod crc v.val hv
  have hhigh : (crc ^^^ v.val) / 256 = crc >>> 8 := xor_byte_div crc v.val hv
  rw [crcMakeTable_getD poly _ hidx, crcShift_byte poly (crc ^^^ v.val), hlow, hhigh]

theorem crcLoop_eq (poly : Nat) (p : List Byte) : ∀ crc : Nat,
    crcLoop (crcMakeTable poly) crc p
      = p.foldl (fun reg b => (crcShift poly)^[8] (reg ^^^ b.val)) crc := by
  induction p with
  | nil => intro crc; rfl
  | cons v p ih =>
    intro crc
    simp only [crcLoop, List.foldl_cons] at ih ⊢
    rw [crcLoop_step, ih]

/-- The digest `crc32.NewIEEE()` fed the bytes `bs` sums to CRC-32 (IEEE) of `bs`. -/
theorem crc32_eq_reference (bs : List Byte) :
    (crc32.NewIEEE.Write bs).Sum32 = Reference.crc32IEEE bs := by
  simp only [Hash32.Write, Hash32.Sum32, crc32.NewIEEE, crc32.simpleUpdate, crc32.IEEETable,
    crc32.IEEE, Reference.crc32IEEE, Reference.crc, crcLoop_eq]
  rfl

/-- The digest `crc64.New(crc64.MakeTable(crc64.ISO))` fed the bytes `bs` sums to CRC-64
(ISO) of `bs`. -/
theorem crc64_eq_reference (bs : List Byte) :
    ((crc64.New (crc64.MakeTable crc64.ISO)).Write bs).Sum64 = Reference.crc64ISO bs := by
  simp only [Hash64.Write, Hash64.Sum64, crc64.New, crc64.update, crc64.MakeTable,
    crc64.ISO, Reference.crc64ISO, Reference.crc, crcLoop_eq]
  rfl

/-! ## Adler-32: the chunked sums on machine words are the sums modulo 65521 -/

theorem sums_eq_plainSums (p : List Byte) : ∀ (s r : Nat × Nat),
    s.1 = r.1 % 2 ^ 32 → s.2 = r.2 % 2 ^ 32 →
    adler32.sums s p = ((Reference.plainSums r p).1 % 2 ^ 32, (Reference.plainSums r p).2 % 2 ^ 32) := by
  induction p with
  | nil =>
    intro s r h1 h2
    simp only [adler32.sums, Reference.plainSums, List.foldl_nil, ← h1, ← h2]
  | cons x p ih =>
    intro s r h1 h2
    simp only [adler32.sums, Reference.plainSums, List.foldl_cons] at ih ⊢
    apply ih
    · simp only [h1]; omega
    · simp only [h1, h2]; omega

theorem adlerSums_eq_plainSums (p : List Byte) : ∀ (s r : Nat × Nat),
    s.1 = r.1 % 65521 → s.2 = r.2 % 65521 →
    Reference.adlerSums s p
      = ((Reference.plainSums r p).1 % 65521, (Reference.plainSums r p).2 % 65521) := by
  induction p with
  | nil =>
    intro s r h1 h2
    simp only [Reference.adlerSums, Reference.plainSums, List.foldl_nil, ← h1, ← h2]
  | cons x p ih =>
    intro s r h1 h2
    simp only [Reference.adlerSums, Reference.plainSums, List.foldl_cons] at ih ⊢
    apply ih
    · simp only [h1]; omega
    · simp only [h1, h2]; omega

/-- How far the plain sums can grow over `p`. -/
theorem plainSums_le (p : List Byte) : ∀ (a b : Nat),
    (Reference.plainSums (a, b) p).1 ≤ a + 255 * p.length ∧
    2 * (Reference.plainSums (a, b) p).2
      ≤ 2 * b + 2 * p.length * a + 255 * (p.length * (p.length + 1)) := by
  induction p with
  | nil => intro a b; simp [Reference.plainSums]
  | cons x p ih =>
    intro a b
    have hx : x.val ≤ 255 := by have := x.isLt; omega
    obtain ⟨h1, h2⟩ := ih (a + x.val) (b + (a + x.val))
    simp only [Reference.plainSums, List.foldl_cons, List.length_cons] at h1 h2 ⊢
    have hnx : p.length * x.val ≤ p.length * 255 := Nat.mul_le_mul_left _ hx
    constructor
    · omega
    · nlinarith

/-- A chunk of at most `nmax` bytes summed on `uint32` from reduced sums does
not overflow: reducing at the end of the chunk gives the sums modulo 65521. -/
theorem sums_chunk (s : Nat × Nat) (p : List Byte) (h1 : s.1 < 65521) (h2 : s.2 < 65521)
    (hp : p.length ≤ adler32.nmax) :
    ((adler32.sums s p).1 % adler32.mod, (adler32.sums s p).2 % adler32.mod)
      = Reference.adlerSums s p := by
  rw [sums_eq_plainSums p s s (by omega) (by omega),
    adlerSums_eq_plainSums p s s (by omega) (by omega)]
  obtain ⟨b1, b2⟩ := plainSums_le p s.1 s.2
  simp only [adler32.nmax, adler32.mod] at hp ⊢
  have hsq : p.length * (p.length + 1) ≤ 5552 * 5553 :=
    Nat.mul_le_mul hp (by omega)
  have hla : p.length * s.1 ≤ 5552 * 65520 := Nat.mul_le_mul hp (by omega)
  have e1 : (Reference.plainSums s p).1 < 2 ^ 32 := by
    have : (Reference.plainSums (s.1, s.2) p).1 < 2 ^ 32 := by omega
    exact this
  have e2 : (Reference.plainSums s p).2 < 2 ^ 32 := by
    have : (Reference.plainSums (s.1, s.2) p).2 < 2 ^ 32 := by nlinarith
    exact this
  rw [Nat.mod_eq_of_lt e1, Nat.mod_eq_of_lt e2]

theorem adlerSums_lt (p : List Byte) : ∀ (s : Nat × Nat), s.1 < 65521 → s.2 < 65521 →
    (Reference.adlerSums s p).1 < 65521 ∧ (Reference.adlerSums s p).2 < 65521 := by
  induction p with
  | nil => intro s h1 h2; exact ⟨h1, h2⟩
  | cons x p ih =>
    intro s h1 h2
    simp only [Reference.adlerSums, List.foldl_cons] at ih ⊢
    exact ih _ (Nat.mod_lt _ (by decide)) (Nat.mod_lt _ (by decide))

theorem adlerSums_append (s : Nat × Nat) (p q : List Byte) :
    Reference.adlerSums s (p ++ q) = Reference.adlerSums (Reference.adlerSums s p) q := by
  simp only [Reference.adlerSums, List.foldl_append]

theorem chunks_nil (fuel : Nat) (s : Nat × Nat) : adler32.chunks fuel s [] = s := by
  cases fuel <;> simp [adler32.chunks]

/-- The outer loop of `adler32.update` with enough iterations computes the sums
modulo 65521 of all bytes. -/
theorem chunks_eq_adlerSums : ∀ (fuel : Nat) (s : Nat × Nat) (p : List Byte),
    p.length ≤ fuel → s.1 < 65521 → s.2 < 65521 →
    adler32.chunks fuel s p = Reference.adlerSums s p := by
  intro fuel
  induction fuel with
  | zero =>
    intro s p hp _ _
    have : p = [] := List.length_eq_zero.mp (by omega)
    subst this
    rfl
  | succ fuel ih =>
    intro s p hp h1 h2
    by_cases hlen : p.length > 0
    · by_cases hmax : p.length > adler32.nmax
      · simp only [adler32.chunks, hlen, hmax, if_true]
        have htake : (p.take adler32.nmax).length ≤ adler32.nmax := by simp
        have hchunk := sums_chunk s (p.take adler32.nmax) h1 h2 htake
        have hlt := adlerSums_lt (p.take adler32.nmax) s h1 h2
        rw [hchunk, ih _ _ (by simp [adler32.nmax] at hmax ⊢; omega) hlt.1 hlt.2,
          ← adlerSums_append, List.take_append_drop]
      · simp only [adler32.chunks, hlen, hmax, if_true, if_false]
        rw [sums_chunk s p h1 h2 (by omega), chunks_nil]
    · have : p = [] := List.length_eq_zero.mp (by omega)
      subst this
      simp [adler32.chunks, Reference.adlerSums]

/-- The digest `adler32.New()` fed the bytes `bs` sums to Adler-32 of `bs`. -/
theorem adler32_eq_reference (bs : List Byte) :
    (adler32.New.Write bs).Sum32 = Reference.adler32 bs := by
  simp only [Hash32.Write, Hash32.Sum32, adler32.New, adler32.update, Reference.adler32]
  have hinit : ((1 : Nat) &&& 0xffff, (1 : Nat) >>> 16) = (1, 0) := by decide
  rw [hinit, chunks_eq_adlerSums _ _ _ (le_refl _) (by decide) (by decide)]
  obtain ⟨h1, h2⟩ := adlerSums_lt bs (1, 0) (by decide) (by decide)
  generalize (Reference.adlerSums (1, 0) bs).1 = s1 at h1 ⊢
  generalize (Reference.adlerSums (1, 0) bs).2 = s2 at h2 ⊢
  have hshift : s2 <<< 16 = 2 ^ 16 * s2 := by rw [Nat.shiftLeft_eq, Nat.mul_comm]
  have hlt : 2 ^ 16 * s2 < 2 ^ 32 := by omega
  rw [hshift, Nat.mod_eq_of_lt hlt, ← Nat.mul_add_lt_is_or (by omega)]
  omega

/-! ## FNV -/

theorem fnv1_eq_foldl (width prime : Nat) (bs : List Byte) : ∀ h : Nat,
    Reference.fnv1 width prime h bs
      = bs.foldl (fun hash c => ((hash * prime) % 2 ^ width) ^^^ c.val) h := by
  induction bs with
  | nil => intro h; rfl
  | cons b bs ih => intro h; simp only [Reference.fnv1, List.foldl_cons, ih]

theorem fnv1a_eq_foldl (width prime : Nat) (bs : List Byte) : ∀ h : Nat,
    Reference.fnv1a width prime h bs
      = bs.foldl (fun hash c => ((hash ^^^ c.val) * prime) % 2 ^ width) h := by
  induction bs with
  | nil => intro h; rfl
  | cons b bs ih => intro h; simp only [Reference.fnv1a, List.foldl_cons, ih]

/-- The digest `fnv.New32()` fed the bytes `bs` sums to 32-bit FNV-1 of `bs`. -/
theorem fnv32_eq_reference (bs : List Byte) :
    (fnv.New32.Write bs).Sum32 = Reference.fnv1_32 bs := by
  simp only [Hash32.Write, Hash32.Sum32, fnv.New32, fnv.write32, Reference.fnv1_32,
    fnv1_eq_foldl]
  rfl

/-- The digest `fnv.New32a()` fed the bytes `bs` sums to 32-bit FNV-1a of `bs`. -/
theorem fnva32_eq_reference (bs : List Byte) :
    (fnv.New32a.Write bs).Sum32 = Reference.fnv1a_32 bs := by
  simp only [Hash32.Write, Hash32.Sum32, fnv.New32a, fnv.write32a, Reference.fnv1a_32,
    fnv1a_eq_foldl]
  rfl

/-- The digest `fnv.New64()` fed the bytes `bs` sums to 64-bit FNV-1 of `bs`. -/
theorem fnv64_eq_reference (bs : List Byte) :
    (fnv.New64.Write bs).Sum64 = Reference.fnv1_64 bs := by
  simp only [Hash64.Write, Hash64.Sum64, fnv.New64, fnv.write64, Reference.fnv1_64,
    fnv1_eq_foldl]
  rfl

/-- The digest `fnv.New64a()` fed the bytes `bs` sums to 64-bit FNV-1a of `bs`. -/
theorem fnva64_eq_reference (bs : List Byte) :
    (fnv.New64a.Write bs).Sum64 = Reference.fnv1a_64 bs := by
  simp only [Hash64.Write, Hash64.Sum64, fnv.New64a, fnv.write64a, Reference.fnv1a_64,
    fnv1a_eq_foldl]
  rfl

/-! ## The hash values fit their width -/

theorem byte_lt_two_pow (b : Byte) {w : Nat} (hw : 8 ≤ w) : b.val < 2 ^ w :=
  lt_of_lt_of_le (show b.val < 2 ^ 8 from b.isLt) (Nat.pow_le_pow_right (by decide) hw)

theorem crcShift_lt {w poly x : Nat} (hp : poly < 2 ^ w) (hx : x < 2 ^ w) :
    crcShift poly x < 2 ^ w := by
  have hs : x >>> 1 < 2 ^ w := by
    rw [Nat.shiftRight_eq_div_pow]
    exact lt_of_le_of_lt (Nat.div_le_self x _) hx
  unfold crcShift
  split
  · exact Nat.xor_lt_two_pow hs hp
  · exact hs

theorem crcShift_iterate_lt {w poly : Nat} (hp : poly < 2 ^ w) (k : Nat) : ∀ x : Nat,
    x < 2 ^ w → (crcShift poly)^[k] x < 2 ^ w := by
  induction k with
  | zero => intro x hx; exact hx
  | succ k ih =>
    intro x hx
    rw [Function.iterate_succ_apply]
    exact ih _ (crcShift_lt hp hx)

theorem crc_lt (w poly : Nat) (hw : 8 ≤ w) (hp : poly < 2 ^ w) (bs : List Byte) :
    Reference.crc w poly bs < 2 ^ w := by
  have hones : 2 ^ w - 1 < 2 ^ w := Nat.sub_lt (Nat.two_pow_pos w) (by decide)
  have hreg : ∀ (bs : List Byte) (reg : Nat), reg < 2 ^ w →
      bs.foldl (fun reg b => (crcShift poly)^[8] (reg ^^^ b.val)) reg < 2 ^ w := by
    intro bs
    induction bs with
    | nil => intro reg h; exact h
    | cons b bs ih =>
      intro reg h
      rw [List.foldl_cons]
      exact ih _ (crcShift_iterate_lt hp 8 _ (Nat.xor_lt_two_pow h (byte_lt_two_pow b hw)))
  exact Nat.xor_lt_two_pow (hreg bs _ hones) hones

theorem adler32_lt (bs : List Byte) : Reference.adler32 bs < 2 ^ 32 := by
  obtain ⟨h1, h2⟩ := adlerSums_lt bs (1, 0) (by decide) (by decide)
  unfold Reference.adler32
  omega

theorem fnv1_lt (w prime : Nat) (hw : 8 ≤ w) (bs : List Byte) : ∀ h : Nat, h < 2 ^ w →
    Reference.fnv1 w prime h bs < 2 ^ w := by
  induction bs with
  | nil => intro h hh; exact hh
  | cons b bs ih =>
    intro h _
    rw [Reference.fnv1]
    exact ih _ (Nat.xor_lt_two_pow (Nat.mod_lt _ (Nat.two_pow_pos w)) (byte_lt_two_pow b hw))

theorem fnv1a_lt (w prime : Nat) (bs : List Byte) : ∀ h : Nat, h < 2 ^ w →
    Reference.fnv1a w prime h bs < 2 ^ w := by
  induction bs with
  | nil => intro h hh; exact hh
  | cons b bs ih =>
    intro h _
    rw [Reference.fnv1a]
    exact ih _ (Nat.mod_lt _ (Nat.two_pow_pos w))

/-! ## The table -/

/-- The lookup in the table, entry by entry. -/
theorem lookup_eq (name : String) :
    Reference.lookup name =
      if name = "crc32" then some (32, Reference.crc32IEEE)
      else if name = "adler32" then some (32, Reference.adler32)
      else if name = "fnv32" then some (32, Reference.fnv1_32)
      else if name = "fnva32" then some (32, Reference.fnv1a_32)
      else if name = "crc64" then some (64, Reference.crc64ISO)
      else if name = "fnv64" then some (64, Reference.fnv1_64)
      else if name = "fnva64" then some (64, Reference.fnv1a_64)
      else none := by
  simp only [Reference.lookup, Reference.table, List.find?_cons, List.find?_nil]
  by_cases h1 : name = "crc32"
  · subst h1; rfl
  by_cases h2 : name = "adler32"
  · subst h2; rfl
  by_cases h3 : name = "fnv32"
  · subst h3; rfl
  by_cases h4 : name = "fnva32"
  · subst h4; rfl
  by_cases h5 : name = "crc64"
  · subst h5; rfl
  by_cases h6 : name = "fnv64"
  · subst h6; rfl
  by_cases h7 : name = "fnva64"
  · subst h7; rfl
  have e1 : decide ("crc32" = name) = false := decide_eq_false (Ne.symm h1)
  have e2 : decide ("adler32" = name) = false := decide_eq_false (Ne.symm h2)
  have e3 : decide ("fnv32" = name) = false := decide_eq_false (Ne.symm h3)
  have e4 : decide ("fnva32" = name) = false := decide_eq_false (Ne.symm h4)
  have e5 : decide ("crc64" = name) = false := decide_eq_false (Ne.symm h5)
  have e6 : decide ("fnv64" = name) = false := decide_eq_false (Ne.symm h6)
  have e7 : decide ("fnva64" = name) = false := decide_eq_false (Ne.symm h7)
  simp only [e1, e2, e3, e4, e5, e6, e7, h1, h2, h3, h4, h5, h6, h7, if_false, Option.map_none']

/-- A name is in the table exactly when it is one of the seven names. -/
theorem lookup_isSome_iff (name : String) :
    (Reference.lookup name).isSome = true ↔ name ∈ Reference.names := by
  have hnames : Reference.names
      = ["crc32", "adler32", "fnv32", "fnva32", "crc64", "fnv64", "fnva64"] := rfl
  rw [lookup_eq, hnames]
  simp only [List.mem_cons, List.mem_singleton, List.not_mem_nil, or_false]
  by_cases h1 : name = "crc32"
  · simp [h1]
  by_cases h2 : name = "adler32"
  · simp [h2]
  by_cases h3 : name = "fnv32"
  · simp [h3]
  by_cases h4 : name = "fnva32"
  · simp [h4]
  by_cases h5 : name = "crc64"
  · simp [h5]
  by_cases h6 : name = "fnv64"
  · simp [h6]
  by_cases h7 : name = "fnva64"
  · simp [h7]
  simp [h1, h2, h3, h4, h5, h6, h7]

/-- Every entry of the table is 32 or 64 bits wide, its name ends in its
width, and its hash values fit the width. -/
theorem lookup_width (name : String) (w : Nat) (h : List Byte → Nat)
    (hl : Reference.lookup name = some (w, h)) :
    ((w = 32 ∧ HasSuffix name "32" = true ∧ HasSuffix name "64" = false) ∨
     (w = 64 ∧ HasSuffix name "64" = true ∧ HasSuffix name "32" = false)) ∧
    ∀ bs, h bs < 2 ^ w := by
  rw [lookup_eq] at hl
  split at hl
  · next hn =>
    simp only [Option.some.injEq, Prod.mk.injEq] at hl
    obtain ⟨rfl, rfl⟩ := hl
    subst hn
    exact ⟨Or.inl ⟨rfl, by decide, by decide⟩, fun bs => crc_lt 32 _ (by decide) (by decide) bs⟩
  split at hl
  · next hn =>
    simp only [Option.some.injEq, Prod.mk.injEq] at hl
    obtain ⟨rfl, rfl⟩ := hl
    subst hn
    exact ⟨Or.inl ⟨rfl, by decide, by decide⟩, adler32_lt⟩
  split at hl
  · next hn =>
    simp only [Option.some.injEq, Prod.mk.injEq] at hl
    obtain ⟨rfl, rfl⟩ := hl
    subst hn
    exact ⟨Or.inl ⟨rfl, by decide, by decide⟩,
      fun bs => fnv1_lt 32 _ (by decide) bs _ (by decide)⟩
  split at hl
  · next hn =>
    simp only [Option.some.injEq, Prod.mk.injEq] at hl
    obtain ⟨rfl, rfl⟩ := hl
    subst hn
    exact ⟨Or.inl ⟨rfl, by decide, by decide⟩, fun bs => fnv1a_lt 32 _ bs _ (by decide)⟩
  split at hl
  · next hn =>
    simp only [Option.some.injEq, Prod.mk.injEq] at hl
    obtain ⟨rfl, rfl⟩ := hl
    subst hn
    exact ⟨Or.inr ⟨rfl, by decide, by decide⟩, fun bs => crc_lt 64 _ (by decide) (by decide) bs⟩
  split at hl
  · next hn =>
    simp only [Option.some.injEq, Prod.mk.injEq] at hl
    obtain ⟨rfl, rfl⟩ := hl
    subst hn
    exact ⟨Or.inr ⟨rfl, by decide, by decide⟩,
      fun bs => fnv1_lt 64 _ (by decide) bs _ (by decide)⟩
  split at hl
  · next hn =>
    simp only [Option.some.injEq, Prod.mk.injEq] at hl
    obtain ⟨rfl, rfl⟩ := hl
    subst hn
    exact ⟨Or.inr ⟨rfl, by decide, by decide⟩, fun bs => fnv1a_lt 64 _ bs _ (by decide)⟩
  · exact absurd hl (by simp)

/-! ## hashFile -/

theorem getHash32_eq (fs : FileSystem) (filename : String) (hs : Hash32) :
    getHash32 fs filename hs =
      match fs filename with
      | .ok bs => (((hs.Write bs).Sum32, none), [Event.read filename])
      | .error e => ((0, some (Error.readFile e)), [Event.read filename]) := by
  unfold getHash32 ReadFile
  cases fs filename <;> rfl

theorem getHash64_eq (fs : FileSystem) (filename : String) (hs : Hash64) :
    getHash64 fs filename hs =
      match fs filename with
      | .ok bs => (((hs.Write bs).Sum64, none), [Event.read filename])
      | .error e => ((0, some (Error.readFile e)), [Event.read filename]) := by
  unfold getHash64 ReadFile
  cases fs filename <;> rfl

/-- The 32-bit branch of `hashFile` when a case of its `switch` matches. -/
theorem hashFile_case32 (fs : FileSystem) (filename algorithm : String) (hs : Hash32)
    (ref : List Byte → Nat) (hsuf : HasSuffix algorithm "32" = true)
    (hsw : switch32 fs filename algorithm = some (getHash32 fs filename hs))
    (href : ∀ bs, (hs.Write bs).Sum32 = ref bs) (hlt : ∀ bs, ref bs < 2 ^ 32) :
    hashFile fs filename algorithm =
      match fs filename with
      | .ok bs => ((Reference.hex (ref bs), none), [Event.read filename])
      | .error e => (("", some (Error.readFile e)), [Event.read filename]) := by
  unfold hashFile
  rw [if_pos hsuf, hsw, getHash32_eq]
  cases fs filename with
  | ok bs =>
    simp only
    rw [href, Sprintf_x_eq_hex _ (lt_trans (hlt bs) (by decide))]
  | error e => rfl

/-- The 64-bit branch of `hashFile` when a case of its `switch` matches. -/
theorem hashFile_case64 (fs : FileSystem) (filename algorithm : String) (hs : Hash64)
    (ref : List Byte → Nat) (hsuf32 : HasSuffix algorithm "32" = false)
    (hsuf : HasSuffix algorithm "64" = true)
    (hsw : switch64 fs filename algorithm = some (getHash64 fs filename hs))
    (href : ∀ bs, (hs.Write bs).Sum64 = ref bs) (hlt : ∀ bs, ref bs < 2 ^ 64) :
    hashFile fs filename algorithm =
      match fs filename with
      | .ok bs => ((Reference.hex (ref bs), none), [Event.read filename])
      | .error e => (("", some (Error.readFile e)), [Event.read filename]) := by
  unfold hashFile
  rw [if_neg (by simp [hsuf32]), if_pos hsuf, hsw, getHash64_eq]
  cases fs filename with
  | ok bs =>
    simp only
    rw [href, Sprintf_x_eq_hex _ (hlt bs)]
  | error e => rfl

/-- A name none of the `case`s matches is the unknown-algorithm error, whatever
its suffix, and nothing is read. -/
theorem hashFile_default (fs : FileSystem) (filename algorithm : String)
    (h1 : algorithm ≠ "crc32") (h2 : algorithm ≠ "adler32") (h3 : algorithm ≠ "fnv32")
    (h4 : algorithm ≠ "fnva32") (h5 : algorithm ≠ "crc64") (h6 : algorithm ≠ "fnv64")
    (h7 : algorithm ≠ "fnva64") :
    hashFile fs filename algorithm = (("", some (Error.errorsNew "unknown algorithm")), []) := by
  have hs32 : switch32 fs filename algorithm = none := by
    simp only [switch32, h1, h2, h3, h4, if_false]
  have hs64 : switch64 fs filename algorithm = none := by
    simp only [switch64, h5, h6, h7, if_false]
  unfold hashFile
  rw [hs32, hs64]
  split
  · rfl
  · split <;> rfl

/-- The program's `hashFile` and the single-lookup dispatcher over the
reference hash functions agree on every input: same text, same error, same
reads. -/
theorem hashFile_eq_reference (fs : FileSystem) (filename algorithm : String) :
    hashFile fs filename algorithm = Reference.hashFile fs filename algorithm := by
  unfold Reference.hashFile
  rw [lookup_eq]
  by_cases h1 : algorithm = "crc32"
  · subst h1
    exact hashFile_case32 fs filename _ crc32.NewIEEE _ (by decide) rfl crc32_eq_reference
      (fun bs => crc_lt 32 _ (by decide) (by decide) bs)
  by_cases h2 : algorithm = "adler32"
  · subst h2
    exact hashFile_case32 fs filename _ adler32.New _ (by decide) rfl adler32_eq_reference
      adler32_lt
  by_cases h3 : algorithm = "fnv32"
  · subst h3
    exact hashFile_case32 fs filename _ fnv.New32 _ (by decide) rfl fnv32_eq_reference
      (fun bs => fnv1_lt 32 _ (by decide) bs _ (by decide))
  by_cases h4 : algorithm = "fnva32"
  · subst h4
    exact hashFile_case32 fs filename _ fnv.New32a _ (by decide) rfl fnva32_eq_reference
      (fun bs => fnv1a_lt 32 _ bs _ (by decide))
  by_cases h5 : algorithm = "crc64"
  · subst h5
    exact hashFile_case64 fs filename _ (crc64.New (crc64.MakeTable crc64.ISO)) _
      (by decide) (by decide) rfl crc64_eq_reference
      (fun bs => crc_lt 64 _ (by decide) (by decide) bs)
  by_cases h6 : algorithm = "fnv64"
  · subst h6
    exact hashFile_case64 fs filename _ fnv.New64 _ (by decide) (by decide) rfl
      fnv64_eq_reference (fun bs => fnv1_lt 64 _ (by decide) bs _ (by decide))
  by_cases h7 : algorithm = "fnva64"
  · subst h7
    exact hashFile_case64 fs filename _ fnv.New64a _ (by decide) (by decide) rfl
      fnva64_eq_reference (fun bs => fnv1a_lt 64 _ bs _ (by decide))
  rw [hashFile_default fs filename algorithm h1 h2 h3 h4 h5 h6 h7]
  simp only [h1, h2, h3, h4, h5, h6, h7, if_false]

/-- What `fmt.Sprintf("%x", v)` returns for a value of at most `k + 1`
hexadecimal digits. -/
theorem Sprintf_x_spec (v k : Nat) (hk : k ≤ 15) (hv : v < 16 ^ (k + 1)) :
    (Sprintf_x v).data ≠ [] ∧
    (∀ c ∈ (Sprintf_x v).data, c ∈ "0123456789abcdef".data) ∧
    ((Sprintf_x v).data.head? = some '0' → Sprintf_x v = "0") ∧
    Reference.readHex (Sprintf_x v) = some v ∧
    (Sprintf_x v).length ≤ k + 1 := by
  have h16 : v < 16 ^ (15 + 1) :=
    lt_of_lt_of_le hv (Nat.pow_le_pow_right (by decide) (by omega))
  have h64 : v % 2 ^ 64 = v := Nat.mod_eq_of_lt (by simpa using h16)
  obtain ⟨hne, hmem, hhead, hread⟩ := fmtInteger16_spec 15 v h16
  have hlen := fmtInteger16_length 15 v k hv
  simp only [Sprintf_x, h64, String.length]
  refine ⟨hne, hmem, ?_, ?_, hlen⟩
  · intro h
    rw [hhead h]
  · simp only [Reference.readHex, hne, if_false, hread]

theorem getHash32_value (fs : FileSystem) (filename : String) (hs : Hash32) (v : Nat)
    (t : List Event) (h : getHash32 fs filename hs = ((v, none), t)) :
    ∃ bs, fs filename = .ok bs ∧ v = (hs.Write bs).Sum32 := by
  rw [getHash32_eq] at h
  cases hfs : fs filename with
  | ok bs =>
    rw [hfs] at h
    simp only [Prod.mk.injEq] at h
    exact ⟨bs, rfl, h.1.1.symm⟩
  | error e =>
    rw [hfs] at h
    simp at h

theorem getHash64_value (fs : FileSystem) (filename : String) (hs : Hash64) (v : Nat)
    (t : List Event) (h : getHash64 fs filename hs = ((v, none), t)) :
    ∃ bs, fs filename = .ok bs ∧ v = (hs.Write bs).Sum64 := by
  rw [getHash64_eq] at h
  cases hfs : fs filename with
  | ok bs =>
    rw [hfs] at h
    simp only [Prod.mk.injEq] at h
    exact ⟨bs, rfl, h.1.1.symm⟩
  | error e =>
    rw [hfs] at h
    simp at h

/-- A value the 32-bit `switch` yields is the reference hash, of the entry of
the name in the table, of the content of the file. -/
theorem switch32_value (fs : FileSystem) (filename algorithm : String) (v : Nat)
    (t : List Event) (h : switch32 fs filename algorithm = some ((v, none), t)) :
    ∃ bs ref, fs filename = .ok bs ∧ Reference.lookup algorithm = some (32, ref) ∧
      v = ref bs := by
  unfold switch32 at h
  split at h
  · next hn =>
    obtain ⟨bs, hfs, hv⟩ := getHash32_value _ _ _ _ _ (Option.some.inj h)
    exact ⟨bs, _, hfs, by rw [lookup_eq, if_pos hn], by rw [hv, crc32_eq_reference]⟩
  split at h
  · next hn =>
    obtain ⟨bs, hfs, hv⟩ := getHash32_value _ _ _ _ _ (Option.some.inj h)
    subst hn
    exact ⟨bs, _, hfs, by rw [lookup_eq]; rfl, by rw [hv, adler32_eq_reference]⟩
  split at h
  · next hn =>
    obtain ⟨bs, hfs, hv⟩ := getHash32_value _ _ _ _ _ (Option.some.inj h)
    subst hn
    exact ⟨bs, _, hfs, by rw [lookup_eq]; rfl, by rw [hv, fnv32_eq_reference]⟩
  split at h
  · next hn =>
    obtain ⟨bs, hfs, hv⟩ := getHash32_value _ _ _ _ _ (Option.some.inj h)
    subst hn
    exact ⟨bs, _, hfs, by rw [lookup_eq]; rfl, by rw [hv, fnva32_eq_reference]⟩
  · exact absurd h (by simp)

/-- A value the 64-bit `switch` yields is the reference hash, of the entry of
the name in the table, of the content of the file. -/
theorem switch64_value (fs : FileSystem) (filename algorithm : String) (v : Nat)
    (t : List Event) (h : switch64 fs filename algorithm = some ((v, none), t)) :
    ∃ bs ref, fs filename = .ok bs ∧ Reference.lookup algorithm = some (64, ref) ∧
      v = ref bs := by
  unfold switch64 at h
  split at h
  · next hn =>
    obtain ⟨bs, hfs, hv⟩ := getHash64_value _ _ _ _ _ (Option.some.inj h)
    subst hn
    exact ⟨bs, _, hfs, by rw [lookup_eq]; rfl, by rw [hv, crc64_eq_reference]⟩
  split at h
  · next hn =>
    obtain ⟨bs, hfs, hv⟩ := getHash64_value _ _ _ _ _ (Option.some.inj h)
    subst hn
    exact ⟨bs, _, hfs, by rw [lookup_eq]; rfl, by rw [hv, fnv64_eq_reference]⟩
  split at h
  · next hn =>
    obtain ⟨bs, hfs, hv⟩ := getHash64_value _ _ _ _ _ (Option.some.inj h)
    subst hn
    exact ⟨bs, _, hfs, by rw [lookup_eq]; rfl, by rw [hv, fnva64_eq_reference]⟩
  · exact absurd h (by simp)

theorem switch32_lt (fs : FileSystem) (filename algorithm : String) (v : Nat) (t : List Event)
    (h : switch32 fs filename algorithm = some ((v, none), t)) : v < 2 ^ 32 := by
  obtain ⟨bs, ref, _, hl, hv⟩ := switch32_value fs filename algorithm v t h
  rw [hv]
  exact (lookup_width algorithm 32 ref hl).2 bs

theorem switch64_lt (fs : FileSystem) (filename algorithm : String) (v : Nat) (t : List Event)
    (h : switch64 fs filename algorithm = some ((v, none), t)) : v < 2 ^ 64 := by
  obtain ⟨bs, ref, _, hl, hv⟩ := switch64_value fs filename algorithm v t h
  rw [hv]
  exact (lookup_width algorithm 64 ref hl).2 bs

/-- A successful `hashFile` went through one of the two `switch`es, which
yielded a value `v` without an error, and returns `Sprintf("%x", v)`. -/
theorem hashFile_ok (fs : FileSystem) (filename algorithm s : String) (t : List Event)
    (h : hashFile fs filename algorithm = ((s, none), t)) :
    ∃ v, s = Sprintf_x v ∧
      ((HasSuffix algorithm "32" = true ∧ switch32 fs filename algorithm = some ((v, none), t)) ∨
       (HasSuffix algorithm "32" = false ∧ HasSuffix algorithm "64" = true ∧
          switch64 fs filename algorithm = some ((v, none), t))) := by
  unfold hashFile at h
  by_cases h32 : HasSuffix algorithm "32" = true
  · rw [if_pos h32] at h
    cases hsw : switch32 fs filename algorithm with
    | none => rw [hsw] at h; simp at h
    | some r =>
      obtain ⟨⟨v, err⟩, t'⟩ := r
      rw [hsw] at h
      cases err with
      | some e => simp at h
      | none =>
        simp only [Prod.mk.injEq, and_true] at h
        exact ⟨v, h.1.symm, Or.inl ⟨h32, by rw [h.2]⟩⟩
  · rw [if_neg h32] at h
    have h32f : HasSuffix algorithm "32" = false := by simpa using h32
    by_cases h64 : HasSuffix algorithm "64" = true
    · rw [if_pos h64] at h
      cases hsw : switch64 fs filename algorithm with
      | none => rw [hsw] at h; simp at h
      | some r =>
        obtain ⟨⟨v, err⟩, t'⟩ := r
        rw [hsw] at h
        cases err with
        | some e => simp at h
        | none =>
          simp only [Prod.mk.injEq, and_true] at h
          exact ⟨v, h.1.symm, Or.inr ⟨h32f, h64, by rw [h.2]⟩⟩
    · rw [if_neg h64] at h
      simp at h

/-- The text of a successful `hashFile` consists of hexadecimal digits. -/
theorem hashFile_ok_digits (fs : FileSystem) (filename algorithm s : String) (t : List Event)
    (h : hashFile fs filename algorithm = ((s, none), t)) :
    s.data ≠ [] ∧ ∀ c ∈ s.data, c ∈ "0123456789abcdef".data := by
  obtain ⟨v, hs, hv⟩ := hashFile_ok fs filename algorithm s t h
  have hlt : v < 16 ^ (15 + 1) := by
    rcases hv with ⟨_, hsw⟩ | ⟨_, _, hsw⟩
    · exact lt_trans (switch32_lt _ _ _ _ _ hsw) (by decide)
    · exact lt_of_lt_of_le (switch64_lt _ _ _ _ _ hsw) (by decide)
  obtain ⟨hne, hmem, _⟩ := Sprintf_x_spec v 15 (le_refl _) hlt
  rw [hs]
  exact ⟨hne, hmem⟩

/-- The events of `hashFile`: nothing, or the one read of the file. -/
theorem hashFile_events (fs : FileSystem) (filename algorithm : String) :
    (hashFile fs filename algorithm).2 = [] ∨
    (hashFile fs filename algorithm).2 = [Event.read filename] := by
  rw [hashFile_eq_reference]
  unfold Reference.hashFile
  cases Reference.lookup algorithm with
  | none => exact Or.inl rfl
  | some wh =>
    cases hfs : fs filename with
    | ok bs => exact Or.inr rfl
    | error e => exact Or.inr rfl

/-! ## The claims about hashFile -/

/-- C1: for every file system state and every path whose file is readable with
content `bs`, `hashFile` succeeds for each of the seven recognised names and
returns the unpadded lowercase hexadecimal text of the reference hash the table
gives for the name: `crc32` CRC-32 (IEEE), `adler32` Adler-32, `fnv32` 32-bit
FNV-1, `fnva32` 32-bit FNV-1a, `crc64` CRC-64 (ISO), `fnv64` 64-bit FNV-1,
`fnva64` 64-bit FNV-1a; the file is read once. -/
theorem hashFile_known_algorithms (fs : FileSystem) (path : String) (bs : List Byte)
    (hread : fs path = .ok bs) :
    hashFile fs path "crc32"
      = ((Reference.hex (Reference.crc32IEEE bs), none), [Event.read path]) ∧
    hashFile fs path "adler32"
      = ((Reference.hex (Reference.adler32 bs), none), [Event.read path]) ∧
    hashFile fs path "fnv32"
      = ((Reference.hex (Reference.fnv1_32 bs), none), [Event.read path]) ∧
    hashFile fs path "fnva32"
      = ((Reference.hex (Reference.fnv1a_32 bs), none), [Event.read path]) ∧
    hashFile fs path "crc64"
      = ((Reference.hex (Reference.crc64ISO bs), none), [Event.read path]) ∧
    hashFile fs path "fnv64"
      = ((Reference.hex (Reference.fnv1_64 bs), none), [Event.read path]) ∧
    hashFile fs path "fnva64"
      = ((Reference.hex (Reference.fnv1a_64 bs), none), [Event.read path]) := by
  have key : ∀ (name : String) (w : Nat) (ref : List Byte → Nat),
      Reference.lookup name = some (w, ref) →
      hashFile fs path name = ((Reference.hex (ref bs), none), [Event.read path]) := by
    intro name w ref hl
    rw [hashFile_eq_reference]
    simp only [Reference.hashFile, hl, hread]
  exact ⟨key _ 32 _ rfl, key _ 32 _ rfl, key _ 32 _ rfl, key _ 32 _ rfl,
    key _ 64 _ rfl, key _ 64 _ rfl, key _ 64 _ rfl⟩

/-- C1 at the file `abc.txt` of the example file system. -/
theorem hashFile_known_algorithms_witness :
    exampleFS "abc.txt" = .ok [0x61, 0x62, 0x63] ∧
    hashFile exampleFS "abc.txt" "fnva32"
      = ((Reference.hex (Reference.fnv1a_32 [0x61, 0x62, 0x63]), none),
          [Event.read "abc.txt"]) :=
  ⟨rfl, (hashFile_known_algorithms exampleFS "abc.txt" [0x61, 0x62, 0x63] rfl).2.2.2.1⟩

/-- C2: for every name that is not exactly one of the seven recognised names,
every path and every file system state, `hashFile` returns the empty text and
the error with the message `unknown algorithm`, and performs no file read. -/
theorem hashFile_unknown_algorithm (fs : FileSystem) (path name : String)
    (hname : name ∉ ["crc32", "adler32", "fnv32", "fnva32", "crc64", "fnv64", "fnva64"]) :
    ∃ err, hashFile fs path name = (("", some err), []) ∧
      err.Error = "unknown algorithm" := by
  simp only [List.mem_cons, List.mem_singleton, List.not_mem_nil, or_false, not_or] at hname
  obtain ⟨h1, h2, h3, h4, h5, h6, h7⟩ := hname
  exact ⟨Error.errorsNew "unknown algorithm",
    hashFile_default fs path name h1 h2 h3 h4 h5 h6 h7, rfl⟩

/-- C2 at a name that only has a recognised suffix, on a readable file. -/
theorem hashFile_unknown_algorithm_witness :
    "crc16x32" ∉ ["crc32", "adler32", "fnv32", "fnva32", "crc64", "fnv64", "fnva64"] ∧
    ∃ err, hashFile exampleFS "abc.txt" "crc16x32" = (("", some err), []) ∧
      err.Error = "unknown algorithm" :=
  ⟨by decide, hashFile_unknown_algorithm exampleFS "abc.txt" "crc16x32" (by decide)⟩

/-- C3: for a file whose content is the three bytes `abc`, `hashFile` with
`crc32` succeeds and returns exactly `352441c2`. -/
theorem hashFile_crc32_abc (fs : FileSystem) (path : String)
    (hread : fs path = .ok [0x61, 0x62, 0x63]) :
    hashFile fs path "crc32" = (("352441c2", none), [Event.read path]) := by
  have hl : Reference.lookup "crc32" = some (32, Reference.crc32IEEE) := rfl
  have hv : Reference.hex (Reference.crc32IEEE [0x61, 0x62, 0x63]) = "352441c2" := by decide
  rw [hashFile_eq_reference]
  simp only [Reference.hashFile, hl, hread, hv]

/-- C3 at the file `abc.txt` of the example file system. -/
theorem hashFile_crc32_abc_witness :
    exampleFS "abc.txt" = .ok [0x61, 0x62, 0x63] ∧
    hashFile exampleFS "abc.txt" "crc32" = (("352441c2", none), [Event.read "abc.txt"]) :=
  ⟨rfl, hashFile_crc32_abc exampleFS "abc.txt" rfl⟩

/-- C4: for a readable file with empty content, `hashFile` with `crc32` returns
exactly `0` (one digit, neither the empty text nor `00000000`) and `hashFile`
with `adler32` returns exactly `1`. -/
theorem hashFile_empty_file (fs : FileSystem) (path : String) (hread : fs path = .ok []) :
    hashFile fs path "crc32" = (("0", none), [Event.read path]) ∧
    hashFile fs path "adler32" = (("1", none), [Event.read path]) := by
  have hl1 : Reference.lookup "crc32" = some (32, Reference.crc32IEEE) := rfl
  have hl2 : Reference.lookup "adler32" = some (32, Reference.adler32) := rfl
  have hv1 : Reference.hex (Reference.crc32IEEE []) = "0" := by decide
  have hv2 : Reference.hex (Reference.adler32 []) = "1" := by decide
  constructor
  · rw [hashFile_eq_reference]
    simp only [Reference.hashFile, hl1, hread, hv1]
  · rw [hashFile_eq_reference]
    simp only [Reference.hashFile, hl2, hread, hv2]

/-- C4 at the file `empty` of the example file system. -/
theorem hashFile_empty_file_witness :
    exampleFS "empty" = .ok [] ∧
    hashFile exampleFS "empty" "crc32" = (("0", none), [Event.read "empty"]) ∧
    hashFile exampleFS "empty" "adler32" = (("1", none), [Event.read "empty"]) :=
  ⟨rfl, hashFile_empty_file exampleFS "empty" rfl⟩

/-- C5: for every successful call of `hashFile` the returned text is the
minimal base-16 rendering of the computed hash value `v` (the value the
`switch` yielded, which is the reference hash of the content of the file): it
is not empty, consists only of the characters `0`-`9` and `a`-`f`, has no
leading `0` unless it is exactly `0`, reads back as a base-16 numeral to `v`,
and has at most 8 characters for a name ending in `32` and at most 16 for a
name ending in `64`. -/
theorem hashFile_minimal_hex (fs : FileSystem) (filename algorithm s : String)
    (t : List Event) (h : hashFile fs filename algorithm = ((s, none), t)) :
    ∃ v,
      (switch32 fs filename algorithm = some ((v, none), t) ∨
        switch64 fs filename algorithm = some ((v, none), t)) ∧
      (∃ bs w ref, fs filename = .ok bs ∧ Reference.lookup algorithm = some (w, ref) ∧
        v = ref bs) ∧
      s.data ≠ [] ∧
      (∀ c ∈ s.data, c ∈ "0123456789abcdef".data) ∧
      (s.data.head? = some '0' → s = "0") ∧
      Reference.readHex s = some v ∧
      (HasSuffix algorithm "32" = true → s.length ≤ 8) ∧
      (HasSuffix algorithm "64" = true → s.length ≤ 16) := by
  obtain ⟨v, hs, hv⟩ := hashFile_ok fs filename algorithm s t h
  rcases hv with ⟨_, hsw⟩ | ⟨h32, _, hsw⟩
  · obtain ⟨bs, ref, hfs, hl, hval⟩ := switch32_value fs filename algorithm v t hsw
    have hlt : v < 16 ^ (7 + 1) := lt_of_lt_of_le (switch32_lt _ _ _ _ _ hsw) (by decide)
    obtain ⟨hne, hmem, hhead, hread, hlen⟩ := Sprintf_x_spec v 7 (by decide) hlt
    rw [hs]
    exact ⟨v, Or.inl hsw, ⟨bs, 32, ref, hfs, hl, hval⟩, hne, hmem, hhead, hread,
      fun _ => hlen, fun _ => le_trans hlen (by decide)⟩
  · obtain ⟨bs, ref, hfs, hl, hval⟩ := switch64_value fs filename algorithm v t hsw
    have hlt : v < 16 ^ (15 + 1) := lt_of_lt_of_le (switch64_lt _ _ _ _ _ hsw) (by decide)
    obtain ⟨hne, hmem, hhead, hread, hlen⟩ := Sprintf_x_spec v 15 (by decide) hlt
    rw [hs]
    refine ⟨v, Or.inr hsw, ⟨bs, 64, ref, hfs, hl, hval⟩, hne, hmem, hhead, hread, ?_,
      fun _ => hlen⟩
    intro h32t
    rw [h32] at h32t
    exact absurd h32t (by decide)

/-- C5 at the Adler-32 checksum of `abc.txt`, whose eight-digit form would
start with a zero. -/
theorem hashFile_minimal_hex_witness :
    hashFile exampleFS "abc.txt" "adler32" = (("24d0127", none), [Event.read "abc.txt"]) ∧
    ∃ v,
      (switch32 exampleFS "abc.txt" "adler32" = some ((v, none), [Event.read "abc.txt"]) ∨
        switch64 exampleFS "abc.txt" "adler32" = some ((v, none), [Event.read "abc.txt"])) ∧
      (∃ bs w ref, exampleFS "abc.txt" = .ok bs ∧
        Reference.lookup "adler32" = some (w, ref) ∧ v = ref bs) ∧
      "24d0127".data ≠ [] ∧
      (∀ c ∈ "24d0127".data, c ∈ "0123456789abcdef".data) ∧
      ("24d0127".data.head? = some '0' → "24d0127" = "0") ∧
      Reference.readHex "24d0127" = some v ∧
      (HasSuffix "adler32" "32" = true → "24d0127".length ≤ 8) ∧
      (HasSuffix "adler32" "64" = true → "24d0127".length ≤ 16) :=
  ⟨by decide,
    hashFile_minimal_hex exampleFS "abc.txt" "adler32" "24d0127" [Event.read "abc.txt"]
      (by decide)⟩

/-- C6: for each of the seven recognised names and every path whose read fails
with an error `e`, `hashFile` returns the empty text together with exactly the
error `e`, which is not the unknown-algorithm error; and `hashFile` succeeds
exactly when the name is recognised and the read succeeds. -/
theorem hashFile_read_failure (fs : FileSystem) (path name : String) :
    (∀ e, name ∈ ["crc32", "adler32", "fnv32", "fnva32", "crc64", "fnv64", "fnva64"] →
      fs path = .error e →
      hashFile fs path name = (("", some (Error.readFile e)), [Event.read path]) ∧
      Error.readFile e ≠ Error.errorsNew "unknown algorithm") ∧
    ((hashFile fs path name).1.2 = none ↔
      (name ∈ ["crc32", "adler32", "fnv32", "fnva32", "crc64", "fnv64", "fnva64"] ∧
        ∃ bs, fs path = .ok bs)) := by
  have hnames : Reference.names
      = ["crc32", "adler32", "fnv32", "fnva32", "crc64", "fnv64", "fnva64"] := rfl
  have hmem := lookup_isSome_iff name
  rw [hnames] at hmem
  rw [hashFile_eq_reference]
  unfold Reference.hashFile
  constructor
  · intro e hn hfs
    refine ⟨?_, fun h => Error.noConfusion h⟩
    cases hl : Reference.lookup name with
    | none =>
      rw [hl] at hmem
      exact absurd (hmem.mpr hn) (by simp)
    | some wh => simp only [hfs]
  · cases hl : Reference.lookup name with
    | none =>
      rw [hl] at hmem
      constructor
      · intro h
        simp at h
      · intro h
        exact absurd (hmem.mpr h.1) (by simp)
    | some wh =>
      rw [hl] at hmem
      have hn := hmem.mp rfl
      cases hfs : fs path with
      | ok bs => simp [hn]
      | error e => simp

/-- C6 at a missing file of the example file system. -/
theorem hashFile_read_failure_witness :
    "fnv64" ∈ ["crc32", "adler32", "fnv32", "fnva32", "crc64", "fnv64", "fnva64"] ∧
    exampleFS "missing" = .error ⟨"open missing: no such file or directory"⟩ ∧
    hashFile exampleFS "missing" "fnv64"
      = (("", some (Error.readFile ⟨"open missing: no such file or directory"⟩)),
          [Event.read "missing"]) ∧
    Error.readFile ⟨"open missing: no such file or directory"⟩
      ≠ Error.errorsNew "unknown algorithm" :=
  ⟨by decide, rfl,
    (hashFile_read_failure exampleFS "missing" "fnv64").1 _ (by decide) rfl⟩

/-- C7: for every algorithm name and any two paths, in the same or in two
different file system states, whose files are readable with the same content,
`hashFile` returns the same text and the same error; in particular two calls on
the same unmodified file return the same. -/
theorem hashFile_content_only (fs fs' : FileSystem) (p q name : String) (bs : List Byte)
    (hp : fs p = .ok bs) (hq : fs' q = .ok bs) :
    (hashFile fs p name).1 = (hashFile fs' q name).1 := by
  rw [hashFile_eq_reference, hashFile_eq_reference]
  unfold Reference.hashFile
  cases Reference.lookup name with
  | none => rfl
  | some wh => simp only [hp, hq]

/-- C7 at two paths of two file system states that hold the same bytes. -/
theorem hashFile_content_only_witness :
    exampleFS "abc.txt" = .ok [0x61, 0x62, 0x63] ∧
    (fun _ => .ok [0x61, 0x62, 0x63] : FileSystem) "copy" = .ok [0x61, 0x62, 0x63] ∧
    (hashFile exampleFS "abc.txt" "crc64").1
      = (hashFile (fun _ => .ok [0x61, 0x62, 0x63]) "copy" "crc64").1 :=
  ⟨rfl, rfl,
    hashFile_content_only exampleFS (fun _ => .ok [0x61, 0x62, 0x63]) "abc.txt" "copy" "crc64"
      [0x61, 0x62, 0x63] rfl rfl⟩

/-- C10: the test of the suffix in `hashFile` is redundant: for every name,
path and file system state `hashFile` returns the same text and the same error
and performs the same reads as the dispatcher that looks the name up once in
the table of seven entries, reads and hashes the file on a match and returns
the unknown-algorithm error otherwise. -/
theorem hashFile_single_lookup (fs : FileSystem) (filename algorithm : String) :
    hashFile fs filename algorithm = Reference.hashFile fs filename algorithm :=
  hashFile_eq_reference fs filename algorithm

/-! ## The claims about main -/

theorem usage_ne_error (msg : String) :
    "error: " ++ msg ≠ "gohash [-a] [--help] [--version] [file]" := by
  intro h
  have hd := congrArg String.data h
  rw [String.data_append] at hd
  have hhead := congrArg List.head? hd
  have he : ("error: ".data ++ msg.data).head? = some 'e' := rfl
  have hg : "gohash [-a] [--help] [--version] [file]".data.head? = some 'g' := rfl
  rw [he, hg] at hhead
  exact absurd hhead (by decide)

theorem println_error_eq (err : Error) :
    "error:" ++ " " ++ err.Error = "error: " ++ err.Error := by
  apply String.ext
  simp only [String.data_append, List.append_assoc]
  rfl

/-- C8: whatever the other parsed options (any `-a` value, `--version` set or
not, any positional arguments) and whatever the file system state, when
`--help` is set `main` prints the usage line
`gohash [-a] [--help] [--version] [file]`, then has `flag.PrintDefaults` write
the flag descriptions, and does nothing else: no file is read, and no line
printed is the version string, an `error:` line or the text of a successful
`hashFile` call; so `--help` takes precedence over `--version`. -/
theorem main_help (fs : FileSystem) (cl : CommandLine) (hhelp : cl.help = some true) :
    main fs cl
      = [Event.println "gohash [-a] [--help] [--version] [file]", Event.printDefaults] ∧
    (∀ f, Event.read f ∉ main fs cl) ∧
    Event.println versionInfo ∉ main fs cl ∧
    (∀ msg, Event.println ("error: " ++ msg) ∉ main fs cl) ∧
    (∀ (fs' : FileSystem) (f a s : String) (t : List Event),
      hashFile fs' f a = ((s, none), t) → Event.println s ∉ main fs cl) := by
  have hmain : main fs cl
      = [Event.println "gohash [-a] [--help] [--version] [file]", Event.printDefaults] := by
    simp only [main, flagBool, hhelp, Option.getD_some, if_true]
  rw [hmain]
  refine ⟨rfl, ?_, ?_, ?_, ?_⟩
  · intro f hf
    simp at hf
  · intro hv
    simp only [List.mem_cons, Event.println.injEq, List.mem_singleton, List.not_mem_nil,
      or_false] at hv
    rcases hv with hv | hv
    · exact absurd hv (by decide)
    · exact Event.noConfusion hv
  · intro msg hm
    simp only [List.mem_cons, Event.println.injEq, List.mem_singleton, List.not_mem_nil,
      or_false] at hm
    rcases hm with hm | hm
    · exact usage_ne_error msg hm
    · exact Event.noConfusion hm
  · intro fs' f a s t hok hm
    simp only [List.mem_cons, Event.println.injEq, List.mem_singleton, List.not_mem_nil,
      or_false] at hm
    rcases hm with hm | hm
    · obtain ⟨_, hdig⟩ := hashFile_ok_digits fs' f a s t hok
      have hg : 'g' ∈ s.data := by rw [hm]; decide
      exact absurd (hdig 'g' hg) (by decide)
    · exact Event.noConfusion hm

/-- C8 with `--help` and `--version` both set, an `-a` value and a readable
file as argument. -/
theorem main_help_witness :
    (⟨some true, some true, some "adler32", ["abc.txt"]⟩ : CommandLine).help = some true ∧
    main exampleFS ⟨some true, some true, some "adler32", ["abc.txt"]⟩
      = [Event.println "gohash [-a] [--help] [--version] [file]", Event.printDefaults] :=
  ⟨rfl, (main_help exampleFS ⟨some true, some true, some "adler32", ["abc.txt"]⟩ rfl).1⟩

/-- C9: when neither `--help` nor `--version` is set, `main` calls `hashFile`
once, with the first positional argument (further arguments are ignored) and
the `-a` value (`crc32` when `-a` is not given), and prints exactly one line:
the hexadecimal text when `hashFile` succeeds, `error: ` followed by the
message of the error when it fails (`error: unknown algorithm` for a name that
is not recognised); then it returns. -/
theorem main_hash_line (fs : FileSystem) (cl : CommandLine)
    (hhelp : flagBool cl.help false = false) (hversion : flagBool cl.version false = false) :
    ∃ line,
      main fs cl
        = (hashFile fs (flagArg cl 0) (flagString cl.a "crc32")).2 ++ [Event.println line] ∧
      (∀ e ∈ (hashFile fs (flagArg cl 0) (flagString cl.a "crc32")).2,
        e = Event.read (flagArg cl 0)) ∧
      (∀ s, (hashFile fs (flagArg cl 0) (flagString cl.a "crc32")).1 = (s, none) →
        line = s) ∧
      (∀ s err, (hashFile fs (flagArg cl 0) (flagString cl.a "crc32")).1 = (s, some err) →
        line = "error: " ++ err.Error) ∧
      (flagString cl.a "crc32"
          ∉ ["crc32", "adler32", "fnv32", "fnva32", "crc64", "fnv64", "fnva64"] →
        main fs cl = [Event.println "error: unknown algorithm"]) ∧
      (cl.a = none → flagString cl.a "crc32" = "crc32") ∧
      (∀ name, cl.a = some name → flagString cl.a "crc32" = name) ∧
      (∀ p rest, cl.args = p :: rest → flagArg cl 0 = p) := by
  have hevents : ∀ e ∈ (hashFile fs (flagArg cl 0) (flagString cl.a "crc32")).2,
      e = Event.read (flagArg cl 0) := by
    intro e he
    rcases hashFile_events fs (flagArg cl 0) (flagString cl.a "crc32") with h | h
    · rw [h] at he
      simp at he
    · rw [h] at he
      simpa using he
  have hdefault : cl.a = none → flagString cl.a "crc32" = "crc32" := by
    intro h
    rw [h]
    rfl
  have hgiven : ∀ name, cl.a = some name → flagString cl.a "crc32" = name := by
    intro name h
    rw [h]
    rfl
  have harg : ∀ p rest, cl.args = p :: rest → flagArg cl 0 = p := by
    intro p rest h
    simp only [flagArg, h, List.getD_cons_zero]
  have hunknown : flagString cl.a "crc32"
        ∉ ["crc32", "adler32", "fnv32", "fnva32", "crc64", "fnv64", "fnva64"] →
      main fs cl = [Event.println "error: unknown algorithm"] := by
    intro hname
    simp only [List.mem_cons, List.mem_singleton, List.not_mem_nil, or_false, not_or] at hname
    obtain ⟨h1, h2, h3, h4, h5, h6, h7⟩ := hname
    simp only [main, hhelp, hversion, hashFile_default fs _ _ h1 h2 h3 h4 h5 h6 h7]
    rfl
  simp only [main, hhelp, hversion] at hunknown ⊢
  rcases hr : hashFile fs (flagArg cl 0) (flagString cl.a "crc32") with ⟨⟨s, err⟩, t⟩
  rw [hr] at hevents hunknown
  cases err with
  | none =>
    refine ⟨s, ?_, hevents, ?_, ?_, hunknown, hdefault, hgiven, harg⟩
    · simp
    · intro s' hs'
      simp only [Prod.mk.injEq, and_true] at hs'
      exact hs'
    · intro s' err' hs'
      simp at hs'
  | some err =>
    refine ⟨"error: " ++ err.Error, ?_, hevents, ?_, ?_, hunknown, hdefault, hgiven, harg⟩
    · simp [println_error_eq]
    · intro s' hs'
      simp at hs'
    · intro s' err' hs'
      simp only [Prod.mk.injEq, Option.some.injEq] at hs'
      rw [hs'.2]

/-- C9 without `-a`, with two positional arguments. -/
theorem main_hash_line_witness :
    flagBool (⟨none, some false, none, ["abc.txt", "empty"]⟩ : CommandLine).help false = false ∧
    flagBool (⟨none, some false, none, ["abc.txt", "empty"]⟩ : CommandLine).version false
      = false ∧
    main exampleFS ⟨none, some false, none, ["abc.txt", "empty"]⟩
      = [Event.read "abc.txt", Event.println "352441c2"] ∧
    ∃ line,
      main exampleFS ⟨none, some false, none, ["abc.txt", "empty"]⟩
        = (hashFile exampleFS "abc.txt" "crc32").2 ++ [Event.println line] :=
  ⟨rfl, rfl, by decide,
    (main_hash_line exampleFS ⟨none, some false, none, ["abc.txt", "empty"]⟩ rfl rfl).imp
      fun _ h => h.1⟩

end Gohash
